import Mathlib

/-!
# Verification of the bittorrent client against its specification

This file gives a shallow embedding, in Lean 4, of the parts of the
`exellentcoin26/bittorrent` repository that the specification's claims are
about, and proves or refutes each claim against the embedding.

Conventions:

* Byte strings are modelled as `List Nat` with entries below 256.
* Rust `u32`/`u64`/`i64` arithmetic is modelled on `Nat`/`Int` with explicit
  bounds and wrapping where the source can overflow; a Rust `panic!`
  (overflow in checked builds, failed `expect`, out-of-bounds slicing,
  `copy_from_slice` length mismatch) is modelled as `Option.none` or a
  dedicated `crash` constructor.
* Fallible Rust functions returning `Result` are modelled with `Option`
  (`none` = `Err`).

Sources embedded: `bencode/src/lib.rs` (the `BencodeValue` type, its
`to_byte_string` encoder and the `peg` grammar `bencode_parser`),
`src/peer/message.rs` (`PeerMessage::parse` / `into_bytes`),
`src/peer/piece.rs` (`generate_piece_block_requests`,
`check_block_validity`, the block accumulation step of
`Peer::download_piece`), `src/util.rs` (`calculate_piece_length`),
`src/downloader.rs` (`generate_piece_queue` and the body of
`TorrentDownloader::download`).
-/

namespace BT

/-! ## Bencode values

`BencodeValue` from `bencode/src/lib.rs`:

```rust
pub enum BencodeValue {
    String(BString),
    Integer(i64),
    List(Box<[BencodeValue]>),
    Dict(BTreeMap<String, BencodeValue>),
}
```

A `BTreeMap<String, BencodeValue>` is modelled as an association list that
is strictly sorted by the byte-lexicographic order of its keys (the `Ord`
instance of Rust's `String` compares UTF-8 bytes lexicographically); keys
are kept as their UTF-8 byte sequences.
-/

inductive Bencode where
  | str : List Nat → Bencode
  | int : Int → Bencode
  | list : List Bencode → Bencode
  | dict : List (List Nat × Bencode) → Bencode
deriving Inhabited

/-- Byte-lexicographic strict order on keys, the order used by
`BTreeMap<String, _>` (Rust `String`/`str` compare their UTF-8 bytes). -/
def keyLt : List Nat → List Nat → Bool
  | [], [] => false
  | [], _ :: _ => true
  | _ :: _, [] => false
  | a :: as, b :: bs => a < b || (a == b && keyLt as bs)

/-- Insertion into a sorted association list: the model of
`BTreeMap::insert` (an existing binding for an equal key is replaced). -/
def sortedInsert (m : List (List Nat × Bencode)) (kv : List Nat × Bencode) :
    List (List Nat × Bencode) :=
  match m with
  | [] => [kv]
  | (k, v) :: t =>
    if keyLt kv.1 k then kv :: (k, v) :: t
    else if kv.1 == k then kv :: t
    else (k, v) :: sortedInsert t kv

/-- `BTreeMap::from_iter`: repeated insertion, so that a later binding of a
key overwrites an earlier one. -/
def btreeFromList (kvs : List (List Nat × Bencode)) : List (List Nat × Bencode) :=
  kvs.foldl sortedInsert []

/-- `BTreeMap::get`: lookup in the sorted association list. -/
def btreeLookup (m : List (List Nat × Bencode)) (k : List Nat) : Option Bencode :=
  match m with
  | [] => none
  | (k1, v) :: t => if k1 == k then some v else btreeLookup t k

/-! ## Decimal digits

`write_bytes!(.., b"{}", n)` formats integers in decimal with no leading
zeros and a leading `-` for negatives; `str::parse::<u64>` reads such
digits back. -/

/-- The decimal digit characters of `n` (ASCII codes), most significant
first, with no leading zeros (`0` is printed as `"0"`). -/
def natDigits (n : Nat) : List Nat :=
  if h : n < 10 then [48 + n]
  else natDigits (n / 10) ++ [48 + n % 10]
decreasing_by exact Nat.div_lt_self (by omega) (by omega)

/-- Numeric value of a list of ASCII digit characters. -/
def digitsVal (l : List Nat) : Nat :=
  l.foldl (fun acc d => acc * 10 + (d - 48)) 0

def isDigit (c : Nat) : Bool := 48 ≤ c && c ≤ 57

/-! ## Lossy UTF-8 conversion

Dictionary keys are converted in the parser by `k.to_string()` on a
`BString`, i.e. by Rust's lossy UTF-8 conversion: maximal valid chunks
are kept, each maximal invalid subpart is replaced by one U+FFFD
(bytes `EF BF BD`).  `utf8Step` classifies the head of a byte sequence
exactly as `core::str`'s UTF-8 validation does, returning whether a valid
scalar-value encoding starts there and how many bytes the valid sequence
(or the invalid subpart to be replaced) spans. -/

/-- A UTF-8 continuation byte (`0x80..=0xBF`). -/
def isCont (b : Nat) : Bool := 128 ≤ b && b ≤ 191

/-- Head classification of Rust's UTF-8 validation: `(true, n)` when the
first `n` bytes encode one scalar value, `(false, n)` when the first `n`
bytes are the invalid subpart that lossy conversion replaces by one
U+FFFD (for a sequence truncated by the end of input, the subpart is
whatever bytes remain). -/
def utf8Step : List Nat → Bool × Nat
  | [] => (true, 0)
  | b0 :: rest =>
    if b0 < 128 then (true, 1)
    else if b0 < 194 then (false, 1)
    else if b0 ≤ 223 then
      match rest with
      | [] => (false, 1)
      | b1 :: _ => if isCont b1 then (true, 2) else (false, 1)
    else if b0 ≤ 239 then
      let ok1 :=
        if b0 == 224 then fun b1 => 160 ≤ b1 && b1 ≤ 191
        else if b0 == 237 then fun b1 => 128 ≤ b1 && b1 ≤ 159
        else isCont
      match rest with
      | [] => (false, 1)
      | b1 :: rest2 =>
        if ok1 b1 then
          match rest2 with
          | [] => (false, 2)
          | b2 :: _ => if isCont b2 then (true, 3) else (false, 2)
        else (false, 1)
    else if b0 ≤ 244 then
      let ok1 :=
        if b0 == 240 then fun b1 => 144 ≤ b1 && b1 ≤ 191
        else if b0 == 244 then fun b1 => 128 ≤ b1 && b1 ≤ 143
        else isCont
      match rest with
      | [] => (false, 1)
      | b1 :: rest2 =>
        if ok1 b1 then
          match rest2 with
          | [] => (false, 2)
          | b2 :: rest3 =>
            if isCont b2 then
              match rest3 with
              | [] => (false, 3)
              | b3 :: _ => if isCont b3 then (true, 4) else (false, 3)
            else (false, 2)
        else (false, 1)
    else (false, 1)

def utf8LossyAux : Nat → List Nat → List Nat
  | 0, _ => []
  | _ + 1, [] => []
  | f + 1, b0 :: rest =>
    let (ok, n) := utf8Step (b0 :: rest)
    if ok then (b0 :: rest).take n ++ utf8LossyAux f ((b0 :: rest).drop n)
    else 239 :: 191 :: 189 :: utf8LossyAux f ((b0 :: rest).drop n)

/-- The bytes of `String::from_utf8_lossy` / `BString`'s `Display` (used by
`k.to_string()` on parsed dictionary keys). -/
def utf8Lossy (l : List Nat) : List Nat := utf8LossyAux l.length l

def validUtf8Aux : Nat → List Nat → Bool
  | 0, l => l.isEmpty
  | _ + 1, [] => true
  | f + 1, b0 :: rest =>
    let (ok, n) := utf8Step (b0 :: rest)
    ok && validUtf8Aux f ((b0 :: rest).drop n)

/-- Whether a byte sequence is valid UTF-8 (the invariant of a Rust
`String`, hence of every key a `BencodeValue::Dict` can hold). -/
def validUtf8 (l : List Nat) : Bool := validUtf8Aux l.length l

/-! ## The bencode encoder

`BencodeValue::to_byte_string` (`bencode/src/lib.rs`, lines 31-56):
strings as `len:bytes`, integers as `i<decimal>e`, lists as `l...e`,
dictionaries as `d...e` iterating the `BTreeMap` in ascending key order
and writing each entry as `len:key` followed by the encoded value. -/

/-- Decimal digits of an `i64`, with leading `-` when negative. -/
def intDigits (z : Int) : List Nat :=
  if z < 0 then 45 :: natDigits z.natAbs else natDigits z.toNat

mutual

def encodeB : Bencode → List Nat
  | .str s => natDigits s.length ++ 58 :: s
  | .int z => 105 :: (intDigits z ++ [101])
  | .list vs => 108 :: encListB vs
  | .dict kvs => 100 :: encDictB kvs

/-- Encoded list elements followed by the closing `e`. -/
def encListB : List Bencode → List Nat
  | [] => [101]
  | v :: t => encodeB v ++ encListB t

/-- Encoded dictionary entries followed by the closing `e`. -/
def encDictB : List (List Nat × Bencode) → List Nat
  | [] => [101]
  | (k, v) :: t => natDigits k.length ++ 58 :: (k ++ (encodeB v ++ encDictB t))

end

/-! ## The bencode parser

The `peg` grammar `bencode_parser` (`bencode/src/lib.rs`, lines 95-124):

```text
value    = bstring / binteger / blist / bdict    (ordered choice)
bstring  = integer ":" <exactly that many bytes>
binteger = "i" "-"? integer "e"
blist    = "l" value* "e"
bdict    = "d" (bstring value)* "e"   (pairs collected into a BTreeMap,
                                       keys through k.to_string())
integer  = (non_zero_digit digit*) / digit, then parsed as u64
```

`integer` is greedy and the matched slice must parse as a `u64`
(`str::parse::<u64>`), so values of `2^64` and above are a parse error.
`binteger` computes `sign.map(|_| -(n as i64)).unwrap_or(n as i64)`:
the `u64` is cast to `i64` with two's-complement wrapping and negation
also wraps (`-i64::MIN == i64::MIN` under wrapping semantics).

The recursion is by an explicit fuel argument; the top level supplies
`2 * input.length + 2`, which over-approximates the recursion depth of
the grammar on any input (each unit of fuel spent on descending into a
list or dictionary or on one iteration of a `*` loop corresponds to at
least one input byte, counted at most twice). -/

/-- `rule integer() -> u64`: a greedy run of ASCII digits with no leading
zero (a single `0` is allowed), whose value must fit in a `u64`. -/
def parseNum : List Nat → Option (Nat × List Nat)
  | [] => none
  | d :: rest =>
    if 49 ≤ d && d ≤ 57 then
      let digs := rest.takeWhile isDigit
      let n := digitsVal (d :: digs)
      if n < 2 ^ 64 then some (n, rest.dropWhile isDigit) else none
    else if d == 48 then some (0, rest)
    else none

/-- `rule bstring()`: `<len>":"<len bytes>`. -/
def parseBString (input : List Nat) : Option (List Nat × List Nat) :=
  match parseNum input with
  | some (n, c :: r) =>
    if c == 58 then
      if n ≤ r.length then some (r.take n, r.drop n) else none
    else none
  | _ => none

/-- The optional minus sign `[b'-']?` of `binteger`. -/
def stripMinus : List Nat → Bool × List Nat
  | 45 :: r => (true, r)
  | r => (false, r)

/-- Cast of a `u64` value to `i64` (two's complement reinterpretation). -/
def toI64 (n : Nat) : Int := if n < 2 ^ 63 then (n : Int) else (n : Int) - 2 ^ 64

/-- `i64` wrapping negation (`-i64::MIN` stays `i64::MIN`). -/
def wrapNeg (z : Int) : Int := if z = -(2 ^ 63) then z else -z

/-- `rule binteger()`: `"i" "-"? integer "e"` with the sign applied by
wrapping `i64` negation. -/
def parseBInt (input : List Nat) : Option (Int × List Nat) :=
  match input with
  | [] => none
  | c :: r =>
    if c == 105 then
      let (sign, r1) := stripMinus r
      match parseNum r1 with
      | some (n, c2 :: r3) =>
        if c2 == 101 then some (if sign then wrapNeg (toI64 n) else toI64 n, r3)
        else none
      | _ => none
    else none

mutual

/-- `rule value()`: the ordered choice `bstring / binteger / blist / bdict`. -/
def parseVal : Nat → List Nat → Option (Bencode × List Nat)
  | 0, _ => none
  | f + 1, input =>
    match parseBString input with
    | some (s, r) => some (.str s, r)
    | none =>
      match parseBInt input with
      | some (z, r) => some (.int z, r)
      | none =>
        match input with
        | [] => none
        | c :: r =>
          if c == 108 then
            match parseMany f r with
            | (vs, c2 :: r2) => if c2 == 101 then some (.list vs, r2) else none
            | _ => none
          else if c == 100 then
            match parseKVs f r with
            | (kvs, c2 :: r2) =>
              if c2 == 101 then
                some (.dict (btreeFromList (kvs.map fun kv => (utf8Lossy kv.1, kv.2))), r2)
              else none
            | _ => none
          else none

/-- `value()*`: iterate `value` as long as it succeeds. -/
def parseMany : Nat → List Nat → List Bencode × List Nat
  | 0, input => ([], input)
  | f + 1, input =>
    match parseVal f input with
    | some (v, r) =>
      match parseMany f r with
      | (vs, r1) => (v :: vs, r1)
    | none => ([], input)

/-- `(k:bstring() v:value())*`: iterate the key-value pair rule; a pair
only counts when both halves succeed (the `peg` loop backtracks the
key when the value fails). -/
def parseKVs : Nat → List Nat → List (List Nat × Bencode) × List Nat
  | 0, input => ([], input)
  | f + 1, input =>
    match parseBString input with
    | some (k, r) =>
      match parseVal f r with
      | some (v, r1) =>
        match parseKVs f r1 with
        | (kvs, r2) => ((k, v) :: kvs, r2)
      | none => ([], input)
    | none => ([], input)

end

/-- `BencodeValue::try_from_bytes`: run `value` on the whole input; the
generated `peg` parser fails when bytes remain past the outermost value. -/
def bencodeTryFromBytes (b : List Nat) : Option Bencode :=
  match parseVal (2 * b.length + 2) b with
  | some (v, []) => some v
  | _ => none

/-! ## Well-formed values and parser fuel -/

mutual

/-- The invariants every Rust `BencodeValue` satisfies by construction:
integers are `i64`s, byte strings are bytes with a `usize` length, and
dictionaries are `BTreeMap`s — strictly sorted in byte order, with valid
UTF-8 `String` keys. -/
def wfB : Bencode → Bool
  | .str s => s.length < 2 ^ 64 && s.all fun b => b < 256
  | .int z => -(2 ^ 63) ≤ z && z < 2 ^ 63
  | .list vs => wfListB vs
  | .dict kvs => wfDictB kvs

def wfListB : List Bencode → Bool
  | [] => true
  | v :: t => wfB v && wfListB t

def wfDictB : List (List Nat × Bencode) → Bool
  | [] => true
  | (k, v) :: t =>
    (k.length < 2 ^ 64 && k.all (fun b => b < 256) && validUtf8 k && wfB v &&
      (match t with
       | [] => true
       | (k2, _) :: _ => keyLt k k2)) && wfDictB t

end

mutual

/-- Fuel sufficient for `parseVal` to consume an encoded value. -/
def sizeB : Bencode → Nat
  | .str _ => 1
  | .int _ => 1
  | .list vs => 1 + sizeListB vs
  | .dict kvs => 1 + sizeDictB kvs

def sizeListB : List Bencode → Nat
  | [] => 0
  | v :: t => 1 + sizeB v + sizeListB t

def sizeDictB : List (List Nat × Bencode) → Nat
  | [] => 0
  | (_, v) :: t => 1 + sizeB v + sizeDictB t

end

/-! ## Peer wire messages

`src/peer/message.rs`.  `PeerMessage::into_bytes` writes the single id
byte followed by the payload fields (all integers big-endian via
`put_u32`); serialising `Bitfield` hits `unimplemented!` (modelled as
`none`).  Note that `into_bytes` emits no 4-byte length prefix, and no
caller adds one before `write_all`.

`PeerMessage::parse` starts with `input.get_u8()`; the `bytes` crate's
`get_u8`/`get_u32` panic when the buffer holds fewer bytes than
requested, which the model records as `crash` (distinct from `err`, the
`bail!` cases). -/

inductive PeerMessage where
  | unchoke
  | interested
  | bitfield
  | request (index begin length : Nat)
  | piece (index begin : Nat) (block : List Nat)
deriving DecidableEq

/-- Big-endian bytes of a `u32` (`put_u32`). -/
def be32 (n : Nat) : List Nat :=
  [n / 2 ^ 24 % 256, n / 2 ^ 16 % 256, n / 2 ^ 8 % 256, n % 256]

/-- Value of a 4-byte big-endian chunk (`get_u32`). -/
def beVal (l : List Nat) : Nat := l.foldl (fun acc b => acc * 256 + b) 0

def PeerMessage.intoBytes : PeerMessage → Option (List Nat)
  | .unchoke => some [1]
  | .interested => some [2]
  | .request i b l => some (6 :: (be32 i ++ be32 b ++ be32 l))
  | .piece i b blk => some (7 :: (be32 i ++ be32 b ++ blk))
  | .bitfield => none

/-- Result of `PeerMessage::parse`: `Ok`, `Err` (`bail!`), or a panic
inside the `bytes` crate accessors. -/
inductive PMParse where
  | ok (m : PeerMessage)
  | err
  | crash
deriving DecidableEq

def PeerMessage.parse (input : List Nat) : PMParse :=
  match input with
  | [] => .crash
  | id :: rest =>
    if id == 1 then if rest.isEmpty then .ok .unchoke else .err
    else if id == 2 then if rest.isEmpty then .ok .interested else .err
    else if id == 5 then .ok .bitfield
    else if id == 6 then
      if rest.length < 12 then .crash
      else if rest.length == 12 then
        .ok (.request (beVal (rest.take 4)) (beVal ((rest.drop 4).take 4))
          (beVal ((rest.drop 8).take 4)))
      else .err
    else if id == 7 then
      if rest.length < 8 then .crash
      else .ok (.piece (beVal (rest.take 4)) (beVal ((rest.drop 4).take 4)) (rest.drop 8))
    else .err

/-- `prepare_buffer_with_length` (`src/peer.rs`, lines 73-76): read the
4-byte big-endian length prefix `n` and allocate the `n`-byte buffer that
`read_exact` then fills with the frame payload. -/
def prepareBufferWithLength (messageLength : Nat) : List Nat :=
  List.replicate messageLength 0

/-! ## Piece blocks (`src/peer/piece.rs`) -/

/-- `PIECE_BLOCK_SIZE`. -/
def pieceBlockSize : Nat := 16 * 1024

structure PieceBlockRequest where
  index : Nat
  begin : Nat
  length : Nat
deriving DecidableEq

structure PieceBlockResponse where
  index : Nat
  begin : Nat
  block : List Nat
deriving DecidableEq

/-- `generate_piece_block_requests`: `⌈length / PIECE_BLOCK_SIZE⌉` blocks
(the `f64` ceiling of a `u32` divided by `16384` is exact), block `i`
starting at `i * PIECE_BLOCK_SIZE` with size
`(length - offset).min(PIECE_BLOCK_SIZE)`. -/
def generatePieceBlockRequests (index length : Nat) : List PieceBlockRequest :=
  let amount := (length + (pieceBlockSize - 1)) / pieceBlockSize
  (List.range amount).map fun i =>
    let offset := i * pieceBlockSize
    ⟨index, offset, min (length - offset) pieceBlockSize⟩

/-- `check_block_validity` (`src/peer/piece.rs`, lines 144-152): the
received block is rejected when its piece index or offset differ from the
request.  The source compares no other field. -/
def checkBlockValidity (req : PieceBlockRequest) (res : PieceBlockResponse) : Bool :=
  res.index == req.index && res.begin == req.begin

/-- The accumulation step of `Peer::download_piece`:
`buf[rec.begin .. rec.begin + req.length].copy_from_slice(&rec.block)`.
Slicing past the end of `buf` and a `copy_from_slice` length mismatch
both panic (`none`). -/
def copyBlockIntoBuf (buf : List Nat) (req : PieceBlockRequest)
    (res : PieceBlockResponse) : Option (List Nat) :=
  if buf.length < res.begin + req.length then none
  else if res.block.length ≠ req.length then none
  else some (buf.take res.begin ++ res.block ++ buf.drop (res.begin + req.length))

/-! ## Piece lengths and the work queue -/

/-- `calculate_piece_length` (`src/util.rs`, lines 59-64):

```rust
piece_length.min(
    u32::try_from(torrent_length - u64::from(piece_index * piece_length))
        .expect("piece length should fit in 32 bits"))
```

`piece_index * piece_length` is a `u32` multiplication (overflow is a
program error), the subtraction is in `u64` (underflow likewise), and the
failed `expect` when the difference exceeds `u32::MAX` panics; the panics
are modelled as `none`. -/
def calculatePieceLength (pieceLength torrentLength pieceIndex : Nat) : Option Nat :=
  if 2 ^ 32 ≤ pieceIndex * pieceLength then none
  else if torrentLength < pieceIndex * pieceLength then none
  else if 2 ^ 32 ≤ torrentLength - pieceIndex * pieceLength then none
  else some (min pieceLength (torrentLength - pieceIndex * pieceLength))

structure PieceDescriptor where
  index : Nat
  length : Nat
  hash : List Nat
deriving DecidableEq

/-- The descriptor list built by `generate_piece_queue`
(`src/downloader.rs`, lines 31-58) before its random shuffle: hash `i`
becomes a descriptor with index `i` and
`calculate_piece_length(piece_length, torrent_length, i)`.  The shuffle
only permutes this list. -/
def generatePieceDescriptors (pieceHashes : List (List Nat)) (pieceLength : Nat)
    (torrentLength : Nat) : Option (List PieceDescriptor) :=
  pieceHashes.enum.mapM fun ih =>
    (calculatePieceLength pieceLength torrentLength ih.1).map fun len =>
      ⟨ih.1, len, ih.2⟩

/-! ## The download scheduler loop (`src/downloader.rs`, lines 197-265)

Peer socket addresses are abstracted to `Nat`.  The state carries the
piece queue, the `active_peers` map (as an association list) and the list
of `(offset, bytes)` writes performed so far on the output file — the
loop body performs none: the `Success` arm of the drain loop is
`// TODO: Save piece to file.` and discards the downloaded bytes. -/

def maxConcurrentDownloads : Nat := 20

structure SchedulerState where
  pieceQueue : List PieceDescriptor
  activePeers : List (Nat × PieceDescriptor)
  outputWrites : List (Nat × List Nat)
deriving DecidableEq

/-- `PieceDownloadResult`; `Success` carries the peer (identified here by
its socket address) and the downloaded piece. -/
inductive PieceDownloadResult where
  | success (peerSocketAddr : Nat) (piece : PieceDescriptor × List Nat)
  | error (peerSocketAddr : Nat) (pieceDes : PieceDescriptor)
deriving DecidableEq

/-- One step of the `while let Some(Ok(res)) = handles.try_join_next()`
drain loop (lines 241-256).  The `Success` arm only asserts the peer was
active and removes it; the piece bytes are dropped and nothing is written
to the output file.  The `Error` arm re-queues the descriptor.  A failed
`assert!` is a panic (`none`). -/
def drainOne (st : SchedulerState) (res : PieceDownloadResult) : Option SchedulerState :=
  match res with
  | .success addr _piece =>
    if st.activePeers.any fun p => p.1 == addr then
      some { st with activePeers := st.activePeers.filter fun p => p.1 != addr }
    else none
  | .error addr pieceDes =>
    if st.activePeers.any fun p => p.1 == addr then
      some { st with
        activePeers := st.activePeers.filter fun p => p.1 != addr
        pieceQueue := st.pieceQueue ++ [pieceDes] }
    else none

/-- The `for peer in new_peers` spawn loop (lines 207-236): stop when the
concurrency cap is reached; pop a descriptor for each remaining peer and
spawn its task; `None` from `pop_front` is `break 'main` (modelled as
`none`), which leaves the loop with the just-spawned tasks dropped from
bookkeeping and exits the whole scheduler loop. -/
def spawnLoop (active : List (Nat × PieceDescriptor)) :
    List Nat → List PieceDescriptor → List (Nat × PieceDescriptor) →
    Option (List (Nat × PieceDescriptor) × List PieceDescriptor)
  | [], queue, newActive => some (newActive, queue)
  | peer :: rest, queue, newActive =>
    if maxConcurrentDownloads ≤ active.length + newActive.length then
      some (newActive, queue)
    else
      match queue with
      | [] => none
      | d :: qrest => spawnLoop active rest qrest (newActive ++ [(peer, d)])

/-- Outcome of one iteration of the `'main: loop`. -/
inductive LoopStep where
  | exitMain (st : SchedulerState)
  | continueLoop (st : SchedulerState)
  | crashed
deriving DecidableEq

/-- One full iteration of the scheduler's main loop, given the peers the
tracker update offers (already filtered against `active_peers`), the
completed task results drained this round, and which active downloads
have exceeded `PIECE_DOWNLOAD_TIMEOUT`.  Mirrors lines 197-265: spawn
phase (with its `break 'main` on an empty queue), `active_peers.extend`,
the drain loop, `check_piece_download_timeout` (which re-queues the
descriptor of every stale task but leaves the task in `active_peers`),
and the completion test `active_peers.is_empty() && piece_queue.is_empty()`. -/
def downloadIteration (st : SchedulerState) (newPeers : List Nat)
    (results : List PieceDownloadResult) (timedOut : Nat → Bool) : LoopStep :=
  match spawnLoop st.activePeers newPeers st.pieceQueue [] with
  | none => .exitMain st
  | some (newActive, queue1) =>
    let st1 := { st with activePeers := st.activePeers ++ newActive, pieceQueue := queue1 }
    match results.foldlM drainOne st1 with
    | none => .crashed
    | some st2 =>
      let stale := (st2.activePeers.filter fun p => timedOut p.1).map Prod.snd
      let st3 := { st2 with pieceQueue := st2.pieceQueue ++ stale }
      if st3.activePeers.isEmpty && st3.pieceQueue.isEmpty then .exitMain st3
      else .continueLoop st3

/-! ## Auxiliary notions used by the theorems -/

/-- The next byte (if any) does not continue a digit run. -/
def notDigitStart : List Nat → Bool
  | [] => true
  | d :: _ => !isDigit d

/-- The value attached to the last occurrence of key `k` in an entry
list. -/
def lastOcc (kvs : List (List Nat × Bencode)) (k : List Nat) : Option Bencode :=
  (kvs.reverse.find? fun kv => kv.1 == k).map Prod.snd

/-- Entry of a (not necessarily sorted, possibly duplicated) dictionary
input whose key is a well-formed `String` and whose value is a
well-formed `BencodeValue`. -/
def dictEntryOk (kv : List Nat × Bencode) : Bool :=
  decide (kv.1.length < 2 ^ 64) && validUtf8 kv.1 && wfB kv.2

/-- The relation the `BTreeMap` keeps its entries sorted by. -/
def entryLt (p q : List Nat × Bencode) : Prop := keyLt p.1 q.1 = true

/-- Structural induction for the nested inductive `Bencode`. -/
def Bencode.indOn {motive : Bencode → Prop}
    (hstr : ∀ s, motive (.str s)) (hint : ∀ z, motive (.int z))
    (hlist : ∀ vs, (∀ v ∈ vs, motive v) → motive (.list vs))
    (hdict : ∀ kvs, (∀ kv ∈ kvs, motive kv.2) → motive (.dict kvs)) :
    ∀ v, motive v
  | .str s => hstr s
  | .int z => hint z
  | .list vs => hlist vs fun v _ => Bencode.indOn hstr hint hlist hdict v
  | .dict kvs => hdict kvs fun kv _ => Bencode.indOn hstr hint hlist hdict kv.2
decreasing_by
  · have h := List.sizeOf_lt_of_mem (by assumption : _ ∈ vs)
    simp only [Bencode.list.sizeOf_spec]
    omega
  · have h1 : sizeOf kv < sizeOf kvs := List.sizeOf_lt_of_mem (by assumption)
    have h2 : sizeOf kv.2 < sizeOf kv := by
      obtain ⟨a, b⟩ := kv
      simp
    simp only [Bencode.dict.sizeOf_spec]
    omega

/-! ## Decimal digit lemmas -/

theorem natDigits_ne_nil (n : Nat) : natDigits n ≠ [] := by
  rw [natDigits]
  split <;> simp

theorem natDigits_all_digits (n : Nat) : ∀ d ∈ natDigits n, isDigit d = true := by
  induction n using Nat.strong_induction_on with
  | _ n ih =>
    rw [natDigits]
    split
    · intro d hd
      simp only [List.mem_singleton] at hd
      subst hd
      simp only [isDigit, Bool.and_eq_true, decide_eq_true_eq]
      omega
    · intro d hd
      rcases List.mem_append.mp hd with h | h
      · exact ih (n / 10) (Nat.div_lt_self (by omega) (by omega)) d h
      · simp only [List.mem_singleton] at h
        subst h
        simp only [isDigit, Bool.and_eq_true, decide_eq_true_eq]
        have := Nat.mod_lt n (y := 10) (by omega)
        omega

theorem natDigits_head (n : Nat) :
    ∃ d t, natDigits n = d :: t ∧ 48 ≤ d ∧ d ≤ 57 ∧ (1 ≤ n → 49 ≤ d) := by
  induction n using Nat.strong_induction_on with
  | _ n ih =>
    rw [natDigits]
    split
    · exact ⟨48 + n, [], rfl, by omega, by omega, by omega⟩
    · obtain ⟨d, t, hd, h1, h2, h3⟩ := ih (n / 10) (Nat.div_lt_self (by omega) (by omega))
      exact ⟨d, t ++ [48 + n % 10], by rw [hd]; rfl, h1, h2, fun _ => h3 (by omega)⟩

theorem digitsVal_append_single (l : List Nat) (d : Nat) :
    digitsVal (l ++ [d]) = digitsVal l * 10 + (d - 48) := by
  simp [digitsVal, List.foldl_append]

theorem digitsVal_natDigits (n : Nat) : digitsVal (natDigits n) = n := by
  induction n using Nat.strong_induction_on with
  | _ n ih =>
    rw [natDigits]
    split
    · simp [digitsVal]
    · rw [digitsVal_append_single, ih (n / 10) (Nat.div_lt_self (by omega) (by omega))]
      omega

theorem span_digits_append (l r : List Nat) (hl : ∀ d ∈ l, isDigit d = true)
    (hr : notDigitStart r = true) :
    (l ++ r).takeWhile isDigit = l ∧ (l ++ r).dropWhile isDigit = r := by
  induction l with
  | nil =>
    cases r with
    | nil => exact ⟨rfl, rfl⟩
    | cons d t =>
      simp only [notDigitStart, Bool.not_eq_true'] at hr
      simp [List.takeWhile, List.dropWhile, hr]
  | cons c l ih =>
    have hc : isDigit c = true := hl c (by simp)
    have := ih fun d hd => hl d (by simp [hd])
    simp only [List.cons_append, List.takeWhile_cons, List.dropWhile_cons, hc, if_true]
    exact ⟨by rw [this.1], by rw [this.2]⟩

theorem parseNum_nil : parseNum [] = none := rfl

theorem parseNum_not_digit (d : Nat) (r : List Nat) (h : isDigit d = false) :
    parseNum (d :: r) = none := by
  simp only [isDigit, Bool.and_eq_false_iff, decide_eq_false_iff_not, Nat.not_le] at h
  simp only [parseNum]
  have h1 : (49 ≤ d && d ≤ 57) = false := by
    simp only [Bool.and_eq_false_iff, decide_eq_false_iff_not, Nat.not_le]
    omega
  have h2 : (d == 48) = false := by
    simp only [beq_eq_false_iff_ne, ne_eq]
    omega
  simp [h1, h2]

theorem parseNum_natDigits (n : Nat) (r : List Nat) (hn : n < 2 ^ 64)
    (hr : notDigitStart r = true) : parseNum (natDigits n ++ r) = some (n, r) := by
  rcases Nat.eq_zero_or_pos n with hz | hpos
  · subst hz
    rw [show natDigits 0 = [48] by rw [natDigits]; simp]
    simp [parseNum]
  · obtain ⟨d, t, hd, h48, h57, h49⟩ := natDigits_head n
    have hall : ∀ x ∈ t, isDigit x = true := fun x hx =>
      natDigits_all_digits n x (by rw [hd]; exact List.mem_cons_of_mem _ hx)
    have hspan := span_digits_append t r hall hr
    have h49' := h49 hpos
    rw [hd, List.cons_append]
    simp only [parseNum]
    have hcond : (49 ≤ d && d ≤ 57) = true := by
      simp only [Bool.and_eq_true, decide_eq_true_eq]
      omega
    rw [hcond]
    simp only [if_true, hspan.1, hspan.2]
    have hval : digitsVal (d :: t) = n := by
      rw [← hd]
      exact digitsVal_natDigits n
    rw [hval, if_pos hn]

/-! ## Lemmas on the string and integer rules -/

theorem parseBString_nil : parseBString [] = none := rfl

theorem parseBString_not_digit (c : Nat) (r : List Nat) (h : isDigit c = false) :
    parseBString (c :: r) = none := by
  simp [parseBString, parseNum_not_digit c r h]

theorem parseBString_encode (s r : List Nat) (h : s.length < 2 ^ 64) :
    parseBString (natDigits s.length ++ 58 :: (s ++ r)) = some (s, r) := by
  have h58 : notDigitStart (58 :: (s ++ r)) = true := by
    simp [notDigitStart, isDigit]
  rw [parseBString, parseNum_natDigits s.length _ h h58]
  have hle : s.length ≤ (s ++ r).length := by simp
  simp only [beq_self_eq_true, if_true, if_pos hle]
  rw [List.take_left, List.drop_left]

theorem stripMinus_nil : stripMinus [] = (false, []) := rfl

theorem stripMinus_45 (r : List Nat) : stripMinus (45 :: r) = (true, r) := rfl

theorem stripMinus_ne (c : Nat) (r : List Nat) (h : c ≠ 45) :
    stripMinus (c :: r) = (false, c :: r) := by
  unfold stripMinus
  split
  · next heq =>
    injection heq with heq1 heq2
    exact absurd heq1 h
  · rfl

theorem parseBInt_nil : parseBInt [] = none := rfl

theorem parseBInt_not_i (c : Nat) (r : List Nat) (h : c ≠ 105) :
    parseBInt (c :: r) = none := by
  simp [parseBInt, h]

theorem wrapNeg_toI64_natAbs (z : Int) (h1 : -(2 ^ 63) ≤ z) (hneg : z < 0) :
    wrapNeg (toI64 z.natAbs) = z := by
  by_cases hb : z.natAbs < 2 ^ 63
  · rw [toI64, if_pos hb, wrapNeg, if_neg (by omega)]
    omega
  · have hb' : z.natAbs = 2 ^ 63 := by omega
    rw [toI64, if_neg hb, wrapNeg, if_pos (by rw [hb']; norm_num)]
    rw [hb']
    omega

theorem toI64_toNat (z : Int) (hpos : 0 ≤ z) (h2 : z < 2 ^ 63) : toI64 z.toNat = z := by
  rw [toI64, if_pos (by omega)]
  omega

theorem parseBInt_encode (z : Int) (r : List Nat) (h1 : -(2 ^ 63) ≤ z)
    (h2 : z < 2 ^ 63) :
    parseBInt (105 :: ((intDigits z ++ [101]) ++ r)) = some (z, r) := by
  have h101 : notDigitStart (101 :: r) = true := by simp [notDigitStart, isDigit]
  rcases lt_or_le z 0 with hneg | hpos
  · have habs : z.natAbs ≤ 2 ^ 63 := by omega
    rw [show intDigits z = 45 :: natDigits z.natAbs by simp [intDigits, hneg]]
    have harr : ((45 :: natDigits z.natAbs) ++ [101]) ++ r =
        45 :: (natDigits z.natAbs ++ (101 :: r)) := by simp
    rw [harr]
    simp only [parseBInt, beq_self_eq_true, if_true, stripMinus_45]
    rw [parseNum_natDigits _ _ (by omega) h101]
    simp only [beq_self_eq_true, if_true, Option.some.injEq, Prod.mk.injEq, and_true]
    exact wrapNeg_toI64_natAbs z h1 hneg
  · rw [show intDigits z = natDigits z.toNat by simp [intDigits, Int.not_lt.mpr hpos]]
    obtain ⟨d, t, hd, h48d, h57d, _⟩ := natDigits_head z.toNat
    have harr : ((natDigits z.toNat) ++ [101]) ++ r =
        natDigits z.toNat ++ (101 :: r) := by simp
    rw [harr]
    simp only [parseBInt, beq_self_eq_true, if_true]
    rw [hd, List.cons_append, stripMinus_ne d _ (by omega), ← List.cons_append, ← hd]
    rw [parseNum_natDigits _ _ (by omega) h101]
    simp only [beq_self_eq_true, if_true, Option.some.injEq, Prod.mk.injEq, and_true]
    exact toI64_toNat z hpos h2

/-- `value` fails on a closing `e` whatever the fuel: every alternative
of the ordered choice rejects the byte `101`. -/
theorem parseVal_e_head (f : Nat) (r : List Nat) : parseVal f (101 :: r) = none := by
  cases f with
  | zero => rfl
  | succ f =>
    rw [parseVal, parseBString_not_digit 101 r (by decide), parseBInt_not_i 101 r (by decide)]
    simp

/-! ## The key order and the `BTreeMap` model -/

theorem keyLt_irrefl (k : List Nat) : keyLt k k = false := by
  induction k with
  | nil => rfl
  | cons a as ih => simp [keyLt, ih]

theorem keyLt_asymm (a b : List Nat) (h : keyLt a b = true) : keyLt b a = false := by
  induction a generalizing b with
  | nil =>
    cases b with
    | nil => simp [keyLt] at h
    | cons y ys => rfl
  | cons x xs ih =>
    cases b with
    | nil => simp [keyLt] at h
    | cons y ys =>
      simp only [keyLt, Bool.or_eq_true, Bool.and_eq_true, decide_eq_true_eq,
        beq_iff_eq] at h
      simp only [keyLt, Bool.or_eq_false_iff, Bool.and_eq_false_iff,
        decide_eq_false_iff_not, Nat.not_lt, beq_eq_false_iff_ne, ne_eq]
      rcases h with h | ⟨rfl, h⟩
      · exact ⟨by omega, Or.inl (by omega)⟩
      · exact ⟨le_rfl, Or.inr (ih ys h)⟩

theorem keyLt_ne (a b : List Nat) (h : keyLt a b = true) : a ≠ b := by
  intro heq
  subst heq
  rw [keyLt_irrefl] at h
  exact absurd h (by simp)

theorem keyLt_trans (a b c : List Nat) (h1 : keyLt a b = true) (h2 : keyLt b c = true) :
    keyLt a c = true := by
  induction a generalizing b c with
  | nil =>
    cases c with
    | nil =>
      cases b with
      | nil => exact h1
      | cons y ys => simp [keyLt] at h2
    | cons z zs => rfl
  | cons x xs ih =>
    cases b with
    | nil => simp [keyLt] at h1
    | cons y ys =>
      cases c with
      | nil => simp [keyLt] at h2
      | cons z zs =>
        simp only [keyLt, Bool.or_eq_true, Bool.and_eq_true, decide_eq_true_eq,
          beq_iff_eq] at h1 h2 ⊢
        rcases h1 with h1 | ⟨rfl, h1⟩
        · rcases h2 with h2 | ⟨rfl, h2⟩
          · exact Or.inl (by omega)
          · exact Or.inl h1
        · rcases h2 with h2 | ⟨rfl, h2⟩
          · exact Or.inl h2
          · exact Or.inr ⟨rfl, ih ys zs h1 h2⟩

theorem sortedInsert_append (m : List (List Nat × Bencode)) (kv : List Nat × Bencode)
    (h : ∀ p ∈ m, keyLt p.1 kv.1 = true) : sortedInsert m kv = m ++ [kv] := by
  induction m with
  | nil => rfl
  | cons p t ih =>
    obtain ⟨k, v⟩ := p
    have hk : keyLt k kv.1 = true := h (k, v) (by simp)
    simp only [sortedInsert]
    rw [if_neg (by rw [keyLt_asymm k kv.1 hk]; simp),
      if_neg (by simp only [beq_iff_eq]; exact fun heq => keyLt_ne k kv.1 hk heq.symm)]
    rw [ih fun q hq => h q (by simp [hq])]
    simp

theorem foldl_sortedInsert_sorted (kvs : List (List Nat × Bencode)) :
    ∀ acc, (∀ p ∈ acc, ∀ q ∈ kvs, keyLt p.1 q.1 = true) →
    List.Chain' entryLt kvs → List.foldl sortedInsert acc kvs = acc ++ kvs := by
  induction kvs with
  | nil => intro acc _ _; simp
  | cons q t ih =>
    intro acc hall hchain
    have hqt : ∀ r ∈ t, keyLt q.1 r.1 = true := by
      haveI : IsTrans (List Nat × Bencode) entryLt :=
        ⟨fun a b c => keyLt_trans a.1 b.1 c.1⟩
      have hp : List.Pairwise entryLt (q :: t) := List.chain'_iff_pairwise.mp hchain
      exact fun r hr => (List.pairwise_cons.mp hp).1 r hr
    simp only [List.foldl_cons]
    rw [sortedInsert_append acc q fun p hp => hall p hp q (by simp)]
    rw [ih (acc ++ [q]) ?side (hchain.tail)]
    · simp
    case side =>
      intro p hp r hr
      rcases List.mem_append.mp hp with hacc | hq
      · exact hall p hacc r (by simp [hr])
      · simp only [List.mem_singleton] at hq
        subst hq
        exact hqt r hr

/-- A `BTreeMap` rebuilt from an already strictly sorted entry sequence
is that sequence. -/
theorem btreeFromList_sorted (kvs : List (List Nat × Bencode))
    (h : List.Chain' entryLt kvs) : btreeFromList kvs = kvs := by
  rw [btreeFromList, foldl_sortedInsert_sorted kvs [] (by simp) h]
  simp

theorem btreeLookup_sortedInsert (m : List (List Nat × Bencode))
    (kv : List Nat × Bencode) (k : List Nat) :
    btreeLookup (sortedInsert m kv) k =
      if kv.1 == k then some kv.2 else btreeLookup m k := by
  induction m with
  | nil => simp [sortedInsert, btreeLookup]
  | cons p t ih =>
    obtain ⟨k1, v1⟩ := p
    simp only [sortedInsert]
    split
    · simp [btreeLookup]
    · split
      · next heq =>
        simp only [beq_iff_eq] at heq
        by_cases hk : k1 = k
        · subst hk
          simp [btreeLookup, heq]
        · have : kv.1 = k → False := fun hh => hk (heq ▸ hh)
          simp only [btreeLookup, beq_iff_eq]
          rw [if_neg this, if_neg this, if_neg hk]
      · next hne =>
        simp only [btreeLookup, beq_iff_eq] at ih ⊢
        by_cases hk : k1 = k
        · subst hk
          have : ¬ kv.1 = k1 := by simpa using hne
          rw [if_pos rfl, if_neg this, if_pos rfl]
        · rw [if_neg hk, ih]
          by_cases hkv : kv.1 = k
          · rw [if_pos hkv, if_pos hkv]
          · rw [if_neg hkv, if_neg hkv, if_neg hk]

theorem lastOcc_append_single (kvs : List (List Nat × Bencode))
    (kv : List Nat × Bencode) (k : List Nat) :
    lastOcc (kvs ++ [kv]) k = if kv.1 == k then some kv.2 else lastOcc kvs k := by
  simp only [lastOcc, List.reverse_append, List.reverse_singleton, List.singleton_append,
    List.find?_cons]
  cases h : kv.1 == k <;> simp

/-- `BTreeMap::from_iter` keeps, for every key, the value of its **last**
occurrence in the iterated sequence. -/
theorem btreeLookup_fromList (kvs : List (List Nat × Bencode)) (k : List Nat) :
    btreeLookup (btreeFromList kvs) k = lastOcc kvs k := by
  induction kvs using List.reverseRecOn with
  | nil => rfl
  | append_singleton kvs kv ih =>
    rw [btreeFromList, List.foldl_append]
    simp only [List.foldl_cons, List.foldl_nil]
    rw [show List.foldl sortedInsert [] kvs = btreeFromList kvs from rfl] at *
    rw [btreeLookup_sortedInsert, lastOcc_append_single, ih]

/-! ## Lossy conversion is the identity on valid UTF-8 -/

theorem utf8Step_pos (b0 : Nat) (rest : List Nat) : 1 ≤ (utf8Step (b0 :: rest)).2 := by
  simp only [utf8Step]
  repeat' split
  all_goals simp

theorem utf8LossyAux_of_valid (f : Nat) :
    ∀ l : List Nat, l.length ≤ f → validUtf8Aux f l = true → utf8LossyAux f l = l := by
  induction f with
  | zero =>
    intro l hl _
    have hnil : l = [] := List.length_eq_zero.mp (by omega)
    subst hnil
    rfl
  | succ f ih =>
    intro l hl hv
    cases l with
    | nil => rfl
    | cons b0 rest =>
      rcases hstep : utf8Step (b0 :: rest) with ⟨ok, n⟩
      have hn : 1 ≤ n := by
        have := utf8Step_pos b0 rest
        rw [hstep] at this
        exact this
      simp only [validUtf8Aux, hstep, Bool.and_eq_true] at hv
      simp only [utf8LossyAux, hstep]
      rw [if_pos hv.1]
      have hlen : ((b0 :: rest).drop n).length ≤ f := by
        simp only [List.length_drop, List.length_cons]
        simp only [List.length_cons] at hl
        omega
      rw [ih ((b0 :: rest).drop n) hlen hv.2]
      exact List.take_append_drop n (b0 :: rest)

theorem utf8Lossy_of_valid (l : List Nat) (h : validUtf8 l = true) : utf8Lossy l = l :=
  utf8LossyAux_of_valid l.length l le_rfl h

/-! ## Extraction from the well-formedness checkers -/

theorem wfListB_forall (vs : List Bencode) :
    wfListB vs = true ↔ ∀ v ∈ vs, wfB v = true := by
  induction vs with
  | nil => simp [wfListB]
  | cons v t ih => simp [wfListB, ih]

theorem wfDictB_entries (kvs : List (List Nat × Bencode)) (h : wfDictB kvs = true) :
    ∀ kv ∈ kvs, kv.1.length < 2 ^ 64 ∧ validUtf8 kv.1 = true ∧ wfB kv.2 = true := by
  induction kvs with
  | nil => simp
  | cons p t ih =>
    obtain ⟨k, v⟩ := p
    simp only [wfDictB, Bool.and_eq_true, decide_eq_true_eq] at h
    intro kv hkv
    rcases List.mem_cons.mp hkv with rfl | hmem
    · exact ⟨h.1.1.1.1.1, h.1.1.1.2, h.1.1.2⟩
    · exact ih h.2 kv hmem

theorem wfDictB_chain (kvs : List (List Nat × Bencode)) (h : wfDictB kvs = true) :
    List.Chain' entryLt kvs := by
  induction kvs with
  | nil => exact List.chain'_nil
  | cons p t ih =>
    obtain ⟨k, v⟩ := p
    simp only [wfDictB, Bool.and_eq_true, decide_eq_true_eq] at h
    have htail := ih h.2
    cases t with
    | nil => simp
    | cons q t2 =>
      refine List.chain'_cons.mpr ⟨?_, htail⟩
      have := h.1.2
      obtain ⟨k2, v2⟩ := q
      exact this

/-! ## Fuel bounds -/

mutual

theorem sizeB_le : ∀ v : Bencode, sizeB v + 2 ≤ 2 * (encodeB v).length
  | .str s => by
    have h1 : 0 < (natDigits s.length).length :=
      List.length_pos.mpr (natDigits_ne_nil s.length)
    simp only [sizeB, encodeB, List.length_append, List.length_cons]
    omega
  | .int z => by
    simp only [sizeB, encodeB, List.length_cons, List.length_append]
    omega
  | .list vs => by
    have h := sizeListB_le vs
    simp only [sizeB, encodeB, List.length_cons]
    omega
  | .dict kvs => by
    have h := sizeDictB_le kvs
    simp only [sizeB, encodeB, List.length_cons]
    omega

theorem sizeListB_le : ∀ vs : List Bencode, sizeListB vs + 1 ≤ 2 * (encListB vs).length
  | [] => by simp [sizeListB, encListB]
  | v :: t => by
    have h1 := sizeB_le v
    have h2 := sizeListB_le t
    simp only [sizeListB, encListB, List.length_append]
    omega

theorem sizeDictB_le :
    ∀ kvs : List (List Nat × Bencode), sizeDictB kvs + 1 ≤ 2 * (encDictB kvs).length
  | [] => by simp [sizeDictB, encDictB]
  | (k, v) :: t => by
    have h1 := sizeB_le v
    have h2 := sizeDictB_le t
    simp only [sizeDictB, encDictB, List.length_append, List.length_cons]
    omega

end

/-! ## The parser consumes exactly what the encoder produced -/

theorem parseVal_succ (f : Nat) (input : List Nat) :
    parseVal (f + 1) input =
      match parseBString input with
      | some (s, r) => some (.str s, r)
      | none =>
        match parseBInt input with
        | some (z, r) => some (.int z, r)
        | none =>
          match input with
          | [] => none
          | c :: r =>
            if c == 108 then
              match parseMany f r with
              | (vs, c2 :: r2) => if c2 == 101 then some (.list vs, r2) else none
              | _ => none
            else if c == 100 then
              match parseKVs f r with
              | (kvs, c2 :: r2) =>
                if c2 == 101 then
                  some (.dict (btreeFromList (kvs.map fun kv => (utf8Lossy kv.1, kv.2))), r2)
                else none
              | _ => none
            else none := rfl

theorem parseMany_succ (f : Nat) (input : List Nat) :
    parseMany (f + 1) input =
      match parseVal f input with
      | some (v, r) =>
        match parseMany f r with
        | (vs, r1) => (v :: vs, r1)
      | none => ([], input) := rfl

theorem parseKVs_succ (f : Nat) (input : List Nat) :
    parseKVs (f + 1) input =
      match parseBString input with
      | some (k, r) =>
        match parseVal f r with
        | some (v, r1) =>
          match parseKVs f r1 with
          | (kvs, r2) => ((k, v) :: kvs, r2)
        | none => ([], input)
      | none => ([], input) := rfl

theorem parse_encode_fuel (f : Nat) :
    (∀ v : Bencode, ∀ r, wfB v = true → sizeB v ≤ f →
        parseVal f (encodeB v ++ r) = some (v, r)) ∧
    (∀ vs : List Bencode, ∀ r, (∀ v ∈ vs, wfB v = true) → sizeListB vs ≤ f →
        parseMany f (encListB vs ++ r) = (vs, 101 :: r)) ∧
    (∀ kvs : List (List Nat × Bencode), ∀ r,
        (∀ kv ∈ kvs, kv.1.length < 2 ^ 64 ∧ wfB kv.2 = true) → sizeDictB kvs ≤ f →
        parseKVs f (encDictB kvs ++ r) = (kvs, 101 :: r)) := by
  induction f with
  | zero =>
    refine ⟨?_, ?_, ?_⟩
    · intro v r _ hs
      exact absurd hs (by cases v <;> simp [sizeB])
    · intro vs r _ hs
      cases vs with
      | nil =>
        rw [show encListB [] ++ r = 101 :: r by simp [encListB]]
        rfl
      | cons v t => simp [sizeListB] at hs
    · intro kvs r _ hs
      cases kvs with
      | nil =>
        rw [show encDictB [] ++ r = 101 :: r by simp [encDictB]]
        rfl
      | cons kv t =>
        obtain ⟨k, v⟩ := kv
        simp [sizeDictB] at hs
  | succ f ih =>
    obtain ⟨ihP, ihQ, ihR⟩ := ih
    refine ⟨?_, ?_, ?_⟩
    · intro v r hwf hs
      cases v with
      | str s =>
        have hlen : s.length < 2 ^ 64 := by
          simp only [wfB, Bool.and_eq_true, decide_eq_true_eq] at hwf
          exact hwf.1
        rw [show encodeB (.str s) ++ r = natDigits s.length ++ 58 :: (s ++ r) by
          simp [encodeB]]
        rw [parseVal_succ, parseBString_encode s r hlen]
      | int z =>
        have hz : -(2 ^ 63) ≤ z ∧ z < 2 ^ 63 := by
          simp only [wfB, Bool.and_eq_true, decide_eq_true_eq] at hwf
          exact hwf
        rw [show encodeB (.int z) ++ r = 105 :: ((intDigits z ++ [101]) ++ r) by
          simp [encodeB]]
        rw [parseVal_succ, parseBString_not_digit 105 _ (by decide),
          parseBInt_encode z r hz.1 hz.2]
      | list vs =>
        have hwf' : ∀ v ∈ vs, wfB v = true := by
          rw [← wfListB_forall]
          simpa [wfB] using hwf
        have hs' : sizeListB vs ≤ f := by
          simp only [sizeB] at hs
          omega
        rw [show encodeB (.list vs) ++ r = 108 :: (encListB vs ++ r) by simp [encodeB]]
        rw [parseVal_succ, parseBString_not_digit 108 _ (by decide),
          parseBInt_not_i 108 _ (by decide)]
        simp only [ihQ vs r hwf' hs']
        rfl
      | dict kvs =>
        have hdict : wfDictB kvs = true := by simpa [wfB] using hwf
        have hentries := wfDictB_entries kvs hdict
        have hchain := wfDictB_chain kvs hdict
        have hs' : sizeDictB kvs ≤ f := by
          simp only [sizeB] at hs
          omega
        rw [show encodeB (.dict kvs) ++ r = 100 :: (encDictB kvs ++ r) by simp [encodeB]]
        rw [parseVal_succ, parseBString_not_digit 100 _ (by decide),
          parseBInt_not_i 100 _ (by decide)]
        simp only [ihR kvs r (fun kv hkv => ⟨(hentries kv hkv).1, (hentries kv hkv).2.2⟩) hs']
        have hmap : kvs.map (fun kv => (utf8Lossy kv.1, kv.2)) = kvs := by
          have hcg : ∀ kv ∈ kvs, (utf8Lossy kv.1, kv.2) = kv := fun kv hkv => by
            obtain ⟨a, b⟩ := kv
            simp only [Prod.mk.injEq, and_true]
            exact utf8Lossy_of_valid a (hentries (a, b) hkv).2.1
          calc kvs.map (fun kv => (utf8Lossy kv.1, kv.2)) = kvs.map id :=
                List.map_congr_left hcg
            _ = kvs := List.map_id kvs
        rw [hmap, btreeFromList_sorted kvs hchain]
        rfl
    · intro vs r hwf hs
      cases vs with
      | nil =>
        rw [show encListB [] ++ r = 101 :: r by simp [encListB]]
        rw [parseMany_succ, parseVal_e_head f r]
      | cons v t =>
        have h1 : wfB v = true := hwf v (by simp)
        have ht : ∀ x ∈ t, wfB x = true := fun x hx => hwf x (by simp [hx])
        have hsv : sizeB v ≤ f ∧ sizeListB t ≤ f := by
          simp only [sizeListB] at hs
          omega
        rw [show encListB (v :: t) ++ r = encodeB v ++ (encListB t ++ r) by simp [encListB]]
        rw [parseMany_succ, ihP v (encListB t ++ r) h1 hsv.1]
        simp only [ihQ t r ht hsv.2]
    · intro kvs r hok hs
      cases kvs with
      | nil =>
        rw [show encDictB [] ++ r = 101 :: r by simp [encDictB]]
        rw [parseKVs_succ, parseBString_not_digit 101 _ (by decide)]
      | cons kv t =>
        obtain ⟨k, v⟩ := kv
        have h1 := hok (k, v) (by simp)
        have ht : ∀ x ∈ t, x.1.length < 2 ^ 64 ∧ wfB x.2 = true :=
          fun x hx => hok x (by simp [hx])
        have hsv : sizeB v ≤ f ∧ sizeDictB t ≤ f := by
          simp only [sizeDictB] at hs
          omega
        rw [show encDictB ((k, v) :: t) ++ r =
            natDigits k.length ++ 58 :: (k ++ (encodeB v ++ (encDictB t ++ r))) by
          simp [encDictB]]
        rw [parseKVs_succ, parseBString_encode k _ h1.1]
        simp only [ihP v (encDictB t ++ r) h1.2 hsv.1, ihR t r ht hsv.2]

/-- Parsing the bytes the encoder produced for a well-formed value yields
that value back, with nothing left over. -/
theorem bencode_roundtrip (v : Bencode) (h : wfB v = true) :
    bencodeTryFromBytes (encodeB v) = some v := by
  have hsize : sizeB v ≤ 2 * (encodeB v).length + 2 := by
    have := sizeB_le v
    omega
  have hp := (parse_encode_fuel (2 * (encodeB v).length + 2)).1 v [] h hsize
  rw [List.append_nil] at hp
  rw [bencodeTryFromBytes, hp]

end BT

namespace BT

/-! ## Claim C1 — codec round-trip -/

/-- C1 (amended): `parse(encode(v)) == v` for every well-formed
`BencodeValue` `v`; and `encode(parse(b)) == b` for every byte sequence
`b` that is itself the canonical encoding of some value.  (Merely having
dictionary keys in canonical ascending order does not suffice: the
parser also accepts non-canonical integer spellings such as `i-0e`,
which re-encode differently.) -/
theorem c1_codec_roundtrip :
    (∀ v : Bencode, wfB v = true → bencodeTryFromBytes (encodeB v) = some v) ∧
    (∀ (b : List Nat) (v : Bencode), bencodeTryFromBytes b = some v →
      (∃ w, wfB w = true ∧ encodeB w = b) → encodeB v = b) := by
  refine ⟨bencode_roundtrip, ?_⟩
  rintro b v hparse ⟨w, hw, rfl⟩
  have hr := bencode_roundtrip w hw
  rw [hr] at hparse
  obtain rfl : w = v := Option.some.inj hparse
  rfl

/-- C1 witness: both directions of the round-trip at the concrete value
`Dict{"a" → 1}` and its encoding `d1:ai1ee`. -/
theorem c1_codec_roundtrip_witness :
    bencodeTryFromBytes [100, 49, 58, 97, 105, 49, 101, 101] =
      some (.dict [([97], .int 1)]) ∧
    encodeB (.dict [([97], .int 1)]) = [100, 49, 58, 97, 105, 49, 101, 101] := by
  have henc : encodeB (.dict [([97], .int 1)]) = [100, 49, 58, 97, 105, 49, 101, 101] := by
    simp [encodeB, encDictB, encListB, intDigits, natDigits]
  have h1 := c1_codec_roundtrip.1 (.dict [([97], .int 1)]) (by rfl)
  refine ⟨by rw [henc] at h1; exact h1, ?_⟩
  exact c1_codec_roundtrip.2 [100, 49, 58, 97, 105, 49, 101, 101] (.dict [([97], .int 1)])
    (by rw [henc] at h1; exact h1) ⟨.dict [([97], .int 1)], by rfl, henc⟩

/-- C1 counterexample: `i-0e` parses successfully (it contains no
dictionary at all, so its keys are vacuously in canonical order), yet
re-encoding the parsed value yields `i0e`, not the original bytes. -/
theorem c1_codec_roundtrip_cex :
    bencodeTryFromBytes [105, 45, 48, 101] = some (.int 0) ∧
    ¬ (bencodeTryFromBytes [105, 45, 48, 101]).map encodeB = some [105, 45, 48, 101] := by
  refine ⟨rfl, ?_⟩
  rw [show bencodeTryFromBytes [105, 45, 48, 101] = some (.int 0) from rfl]
  rw [show (some (Bencode.int 0)).map encodeB = some (encodeB (.int 0)) from rfl]
  rw [show encodeB (.int 0) = [105, 48, 101] by simp [encodeB, intDigits, natDigits]]
  decide

/-! ## Claim C6 — integer grammar -/

/-- C6 (amended): `parse(b"i-42e") == Integer(-42)` and
`parse(b"i0e") == Integer(0)` succeed and `parse(b"i03e")` fails, but
`parse(b"i-0e")` is **not** rejected: it also succeeds and yields
`Integer(0)` (the grammar puts no restriction on a minus sign in front
of `0`). -/
theorem c6_integer_rules :
    bencodeTryFromBytes [105, 45, 52, 50, 101] = some (.int (-42)) ∧
    bencodeTryFromBytes [105, 48, 101] = some (.int 0) ∧
    bencodeTryFromBytes [105, 48, 51, 101] = none ∧
    bencodeTryFromBytes [105, 45, 48, 101] = some (.int 0) :=
  ⟨rfl, rfl, rfl, rfl⟩

/-- C6 counterexample: `parse(b"i-0e")` does not fail with a
`ParseError` — it returns `Integer(0)`. -/
theorem c6_integer_rules_cex : ¬ bencodeTryFromBytes [105, 45, 48, 101] = none := by
  rw [show bencodeTryFromBytes [105, 45, 48, 101] = some (.int 0) from rfl]
  simp

/-! ## Claim C10 — duplicate dictionary keys -/

/-- C10: parsing a dictionary input whose entry sequence `kvs` repeats a
key succeeds, and the resulting `Dict` maps every key to the value of
its last occurrence in the input (`BTreeMap::from_iter` lets later
insertions overwrite earlier ones). -/
theorem c10_duplicate_keys_last_wins (kvs : List (List Nat × Bencode))
    (hok : ∀ kv ∈ kvs, dictEntryOk kv = true)
    (hdup : ∃ k, 2 ≤ (kvs.map Prod.fst).count k) :
    bencodeTryFromBytes (100 :: encDictB kvs) = some (.dict (btreeFromList kvs)) ∧
    ∀ k, btreeLookup (btreeFromList kvs) k = lastOcc kvs k := by
  have hentry : ∀ kv ∈ kvs, kv.1.length < 2 ^ 64 ∧ wfB kv.2 = true := fun kv h => by
    have hkv := hok kv h
    simp only [dictEntryOk, Bool.and_eq_true, decide_eq_true_eq] at hkv
    exact ⟨hkv.1.1, hkv.2⟩
  have hvalid : ∀ kv ∈ kvs, validUtf8 kv.1 = true := fun kv h => by
    have hkv := hok kv h
    simp only [dictEntryOk, Bool.and_eq_true, decide_eq_true_eq] at hkv
    exact hkv.1.2
  have hmap : kvs.map (fun kv => (utf8Lossy kv.1, kv.2)) = kvs := by
    have hcg : ∀ kv ∈ kvs, (utf8Lossy kv.1, kv.2) = kv := fun kv hkv => by
      obtain ⟨a, b⟩ := kv
      simp only [Prod.mk.injEq, and_true]
      exact utf8Lossy_of_valid a (hvalid (a, b) hkv)
    calc kvs.map (fun kv => (utf8Lossy kv.1, kv.2)) = kvs.map id :=
          List.map_congr_left hcg
      _ = kvs := List.map_id kvs
  have hsize : sizeDictB kvs ≤ 2 * (encDictB kvs).length + 3 := by
    have := sizeDictB_le kvs
    omega
  have hkv := (parse_encode_fuel (2 * (encDictB kvs).length + 3)).2.2 kvs [] hentry hsize
  rw [List.append_nil] at hkv
  refine ⟨?_, btreeLookup_fromList kvs⟩
  rw [bencodeTryFromBytes]
  rw [show 2 * (100 :: encDictB kvs).length + 2 = (2 * (encDictB kvs).length + 3) + 1 by
    simp [List.length_cons]; ring]
  rw [parseVal_succ, parseBString_not_digit 100 _ (by decide),
    parseBInt_not_i 100 _ (by decide)]
  simp only [hkv]
  rw [hmap]
  rfl

/-- C10 witness: `d1:ai1e1:ai2ee` (the key `"a"` twice) parses to
`Dict{"a" → 2}`, the value of the last occurrence. -/
theorem c10_duplicate_keys_last_wins_witness :
    bencodeTryFromBytes [100, 49, 58, 97, 105, 49, 101, 49, 58, 97, 105, 50, 101, 101] =
      some (.dict [([97], .int 2)]) ∧
    btreeLookup [([97], .int 2)] [97] = some (.int 2) := by
  have hth := c10_duplicate_keys_last_wins [([97], .int 1), ([97], .int 2)]
    (by decide) ⟨[97], by decide⟩
  have hbytes : (100 :: encDictB [([97], Bencode.int 1), ([97], Bencode.int 2)]) =
      [100, 49, 58, 97, 105, 49, 101, 49, 58, 97, 105, 50, 101, 101] := by
    simp [encDictB, encodeB, intDigits, natDigits]
  have hbt : btreeFromList [([97], Bencode.int 1), ([97], Bencode.int 2)] =
      [([97], Bencode.int 2)] := by rfl
  rw [hbytes, hbt] at hth
  exact ⟨hth.1, (hth.2 [97]).trans (by rfl)⟩

end BT

namespace BT

/-! ## Piece and block length arithmetic -/

theorem ceilDiv_shift (L P : Nat) (hL : 1 ≤ L) (hP : 1 ≤ P) :
    (L + P - 1) / P = (L - 1) / P + 1 := by
  rw [show L + P - 1 = (L - 1) + P by omega, Nat.add_div_right _ (by omega)]

/-- The arithmetic shared by the piece-length law and the block-partition
law: splitting a total of `L` into chunks of size `P` (last chunk
partial), chunk `i` has size `min P (L - i·P)`; every non-last chunk has
size `P`, the last has size `((L-1) mod P) + 1`, and the sizes sum to
`L`. -/
theorem chunk_facts (L P N : Nat) (hL : 1 ≤ L) (hP : 1 ≤ P)
    (hN : N = (L + P - 1) / P) :
    (∀ i, i + 1 < N → min P (L - i * P) = P) ∧
    min P (L - (N - 1) * P) = (L - 1) % P + 1 ∧
    ((List.range N).map fun i => min P (L - i * P)).sum = L ∧
    (∀ i, i < N → i * P ≤ L - 1) ∧ 1 ≤ N := by
  have hN' : N = (L - 1) / P + 1 := by rw [hN, ceilDiv_shift L P hL hP]
  have hNpos : 1 ≤ N := hN' ▸ Nat.le_add_left 1 _
  have hile : ∀ i, i < N → i * P ≤ L - 1 := by
    intro i hi
    have h1 : i ≤ (L - 1) / P := by
      rw [hN'] at hi
      omega
    calc i * P ≤ ((L - 1) / P) * P := Nat.mul_le_mul_right P h1
      _ ≤ L - 1 := Nat.div_mul_le_self (L - 1) P
  have hnonlast : ∀ i, i + 1 < N → min P (L - i * P) = P := by
    intro i hi
    have h1 : (i + 1) * P ≤ L - 1 := hile (i + 1) (by omega)
    have h2 : i * P + P = (i + 1) * P := by ring
    exact Nat.min_eq_left (by omega)
  have hmod := Nat.div_add_mod (L - 1) P
  have hNP : (N - 1) * P = P * ((L - 1) / P) := by
    rw [hN']
    simp [Nat.mul_comm]
  have hml : (L - 1) % P < P := Nat.mod_lt _ (by omega)
  have hlast : min P (L - (N - 1) * P) = (L - 1) % P + 1 := by
    have hsub : L - (N - 1) * P = (L - 1) % P + 1 := by
      rw [hNP]
      omega
    rw [hsub]
    exact Nat.min_eq_right (by omega)
  refine ⟨hnonlast, hlast, ?_, hile, hNpos⟩
  have hstep : ∀ m, m + 1 ≤ N →
      ((List.range m).map fun i => min P (L - i * P)).sum = m * P := by
    intro m
    induction m with
    | zero => intro _; simp
    | succ m ih =>
      intro hm
      rw [List.range_succ, List.map_append, List.sum_append, ih (by omega)]
      simp only [List.map_cons, List.map_nil, List.sum_cons, List.sum_nil]
      rw [hnonlast m (by omega)]
      ring
  rw [show N = (N - 1) + 1 from (Nat.succ_pred_eq_of_pos hNpos).symm, List.range_succ,
    List.map_append, List.sum_append, hstep (N - 1) (by omega)]
  simp only [List.map_cons, List.map_nil, List.sum_cons, List.sum_nil, Nat.add_zero]
  rw [hlast, hNP]
  omega

theorem mapM_option_of_forall {α β : Type} (f : α → Option β) (g : α → β) :
    ∀ l : List α, (∀ x ∈ l, f x = some (g x)) → l.mapM f = some (l.map g) := by
  intro l h
  induction l with
  | nil => rfl
  | cons a t ih =>
    rw [List.mapM_cons, h a (by simp), ih fun x hx => h x (by simp [hx])]
    rfl

/-! ## Claim C7 — piece length law -/

/-- For every in-range piece index the `u32` arithmetic inside
`calculate_piece_length` neither overflows nor hits the failing
`expect`, and the result is `min P (L - i·P)`. -/
theorem calculatePieceLength_eq (P L N i : Nat) (hP : 1 ≤ P) (hL : 1 ≤ L)
    (hL32 : L < 2 ^ 32) (hN : N = (L + P - 1) / P) (hi : i < N) :
    calculatePieceLength P L i = some (min P (L - i * P)) := by
  have hile := (chunk_facts L P N hL hP hN).2.2.2.1 i hi
  unfold calculatePieceLength
  rw [if_neg (by omega), if_neg (by omega), if_neg (by omega)]

/-- C7 (amended): for every torrent whose total length satisfies
`1 ≤ L ≤ 2^32 - 1` (the claim as stated fails for `L ≥ 2^32`, where the
`u32` conversion inside `calculate_piece_length` panics) and piece length
`P ≥ 1`, over the `N = ⌈L/P⌉` pieces: every piece `i < N-1` gets length
`P`, the last piece gets `((L-1) mod P) + 1`, the assigned lengths sum to
`L`, and the descriptor list built by `generate_piece_queue` (before its
random shuffle) records exactly these lengths. -/
theorem c7_piece_length_law (P L N : Nat) (hP : 1 ≤ P) (hL : 1 ≤ L)
    (hL32 : L < 2 ^ 32) (hN : N = (L + P - 1) / P) :
    (∀ i, i + 1 < N → calculatePieceLength P L i = some P) ∧
    calculatePieceLength P L (N - 1) = some ((L - 1) % P + 1) ∧
    (∃ lens : List Nat,
      ((List.range N).mapM fun i => calculatePieceLength P L i) = some lens ∧
      lens.sum = L) ∧
    (∀ hashes : List (List Nat), hashes.length = N →
      generatePieceDescriptors hashes P L =
        some (hashes.enum.map fun ih => ⟨ih.1, min P (L - ih.1 * P), ih.2⟩)) := by
  obtain ⟨hnonlast, hlast, hsum, hile, hNpos⟩ := chunk_facts L P N hL hP hN
  refine ⟨?_, ?_, ?_, ?_⟩
  · intro i hi
    rw [calculatePieceLength_eq P L N i hP hL hL32 hN (by omega), hnonlast i hi]
  · rw [calculatePieceLength_eq P L N (N - 1) hP hL hL32 hN (by omega), hlast]
  · refine ⟨(List.range N).map fun i => min P (L - i * P), ?_, hsum⟩
    exact mapM_option_of_forall _ _ _ fun i hi =>
      calculatePieceLength_eq P L N i hP hL hL32 hN (List.mem_range.mp hi)
  · intro hashes hlen
    refine mapM_option_of_forall _ _ _ fun ih hih => ?_
    have hi1 : ih.1 < N := by
      have hg := List.mem_enum_iff_getElem?.mp hih
      have hlt : ih.1 < hashes.length := by
        by_contra hge
        rw [List.getElem?_eq_none (by omega)] at hg
        cases hg
      omega
    rw [calculatePieceLength_eq P L N ih.1 hP hL hL32 hN hi1]
    rfl

/-- C7 witness: the torrent of the spec's concrete scenario 3
(`L = 20`, `P = 16`, hashes `H0 = [1]`, `H1 = [2]`, so `N = 2`): piece 0
gets length 16, piece 1 gets `((20-1) mod 16) + 1 = 4`, and the generated
descriptors are `{0, 16, H0}` and `{1, 4, H1}`. -/
theorem c7_piece_length_law_witness :
    calculatePieceLength 16 20 0 = some 16 ∧
    calculatePieceLength 16 20 1 = some ((20 - 1) % 16 + 1) ∧
    generatePieceDescriptors [[1], [2]] 16 20 = some [⟨0, 16, [1]⟩, ⟨1, 4, [2]⟩] := by
  obtain ⟨h1, h2, _, h4⟩ := c7_piece_length_law 16 20 2 (by omega) (by omega)
    (by omega) (by omega)
  refine ⟨h1 0 (by omega), h2, ?_⟩
  rw [h4 [[1], [2]] (by rfl)]
  rfl

/-- C7 counterexample: for `P = 2^31`, `L = 2^32` (so `N = 2`), the claim
says piece 0 (a non-last piece) gets length `P`, but
`calculate_piece_length` panics: `u32::try_from(2^32)` fails its
`expect`. -/
theorem c7_piece_length_law_cex :
    calculatePieceLength (2 ^ 31) (2 ^ 32) 0 = none ∧
    calculatePieceLength (2 ^ 31) (2 ^ 32) 0 ≠ some (2 ^ 31) := by
  refine ⟨by rfl, ?_⟩
  rw [show calculatePieceLength (2 ^ 31) (2 ^ 32) 0 = none from rfl]
  simp

/-! ## Claim C8 — block partition law -/

/-- C8: for every piece length `1 ≤ Lp < 2^32` (the `u32` domain), the
block requests generated for the piece tile `[0, Lp)` exactly once:
there are `⌈Lp / 16384⌉` blocks, block `k` has `begin = k·16384` and
`length = min 16384 (Lp − k·16384)`, every block except possibly the
final one has length exactly 16384, and the block lengths sum to `Lp`. -/
theorem c8_block_partition (idx Lp : Nat) (h1 : 1 ≤ Lp) (h2 : Lp < 2 ^ 32) :
    (generatePieceBlockRequests idx Lp).length = (Lp + 16383) / 16384 ∧
    (∀ k, k < (generatePieceBlockRequests idx Lp).length →
      (generatePieceBlockRequests idx Lp)[k]? =
        some ⟨idx, k * 16384, min 16384 (Lp - k * 16384)⟩) ∧
    (∀ k, k + 1 < (generatePieceBlockRequests idx Lp).length →
      ((generatePieceBlockRequests idx Lp)[k]?).map PieceBlockRequest.length =
        some 16384) ∧
    ((generatePieceBlockRequests idx Lp).map PieceBlockRequest.length).sum = Lp := by
  have hreq : generatePieceBlockRequests idx Lp =
      (List.range ((Lp + 16383) / 16384)).map fun i =>
        ⟨idx, i * 16384, min (Lp - i * 16384) 16384⟩ := by
    unfold generatePieceBlockRequests pieceBlockSize
    norm_num
  obtain ⟨hnonlast, hlast, hsum, hile, hNpos⟩ :=
    chunk_facts Lp 16384 ((Lp + 16383) / 16384) h1 (by omega) (by norm_num)
  have hlen : (generatePieceBlockRequests idx Lp).length = (Lp + 16383) / 16384 := by
    rw [hreq, List.length_map, List.length_range]
  have hget : ∀ k, k < (generatePieceBlockRequests idx Lp).length →
      (generatePieceBlockRequests idx Lp)[k]? =
        some ⟨idx, k * 16384, min 16384 (Lp - k * 16384)⟩ := by
    intro k hk
    rw [hlen] at hk
    rw [hreq, List.getElem?_map, List.getElem?_range hk]
    rw [Nat.min_comm]
    rfl
  refine ⟨hlen, hget, ?_, ?_⟩
  · intro k hk
    rw [hget k (by omega)]
    rw [hlen] at hk
    rw [show min 16384 (Lp - k * 16384) = 16384 from hnonlast k hk]
    rfl
  · rw [hreq, List.map_map]
    have hcomp : (PieceBlockRequest.length ∘ fun i =>
        (⟨idx, i * 16384, min (Lp - i * 16384) 16384⟩ : PieceBlockRequest)) =
        fun i => min 16384 (Lp - i * 16384) := by
      funext i
      simp [Nat.min_comm]
    rw [hcomp]
    exact hsum

/-- C8 witness: a piece of length 40000 is tiled by the blocks
`(0, 16384)`, `(16384, 16384)`, `(32768, 7232)`. -/
theorem c8_block_partition_witness :
    (generatePieceBlockRequests 0 40000).length = 3 ∧
    (generatePieceBlockRequests 0 40000)[1]? = some ⟨0, 16384, 16384⟩ ∧
    (generatePieceBlockRequests 0 40000)[2]? = some ⟨0, 32768, 7232⟩ ∧
    ((generatePieceBlockRequests 0 40000).map PieceBlockRequest.length).sum = 40000 := by
  obtain ⟨hlen, hget, _, hsum⟩ := c8_block_partition 0 40000 (by omega) (by omega)
  refine ⟨by rw [hlen], ?_, ?_, hsum⟩
  · rw [hget 1 (by rw [hlen]; omega)]
    rfl
  · rw [hget 2 (by rw [hlen]; omega)]
    rfl

end BT

namespace BT

/-! ## Claim C2 — message framing on the write path -/

/-- C2 (code bug): `PeerMessage::into_bytes` emits only the id byte and
the payload — no 4-byte big-endian length prefix — and its callers pass
its output to `write_all` unchanged.  For `Request(index=1, begin=0,
length=16384)` the bytes written to the socket are exactly the 13
payload bytes `06 00000001 00000000 00004000`; the frame
`00 00 00 0D` ‖ payload required by the claim is never produced, even
though the client's own read path consumes a 4-byte prefix. -/
theorem c2_request_serialization_no_prefix :
    PeerMessage.intoBytes (.request 1 0 16384) =
      some [6, 0, 0, 0, 1, 0, 0, 0, 0, 0, 0, 64, 0] ∧
    (PeerMessage.intoBytes (.request 1 0 16384)).map List.length = some 13 ∧
    PeerMessage.intoBytes (.request 1 0 16384) ≠
      some ([0, 0, 0, 13] ++ [6, 0, 0, 0, 1, 0, 0, 0, 0, 0, 0, 64, 0]) := by
  refine ⟨rfl, rfl, ?_⟩
  decide

/-! ## Claim C3 — completed pieces and the output file -/

/-- C3 (code bug): the `Success` arm of the scheduler's drain loop only
removes the peer from `active_peers`; the downloaded bytes are dropped
(`// TODO: Save piece to file.`) and the model's write log stays empty —
nothing is written at `piece_index * piece_length` or anywhere else. -/
theorem c3_success_discards_piece :
    drainOne ⟨[], [(7, ⟨3, 5, [0]⟩)], []⟩ (.success 7 (⟨3, 5, [0]⟩, [9, 9, 9, 9, 9])) =
      some ⟨[], [], []⟩ ∧
    (drainOne ⟨[], [(7, ⟨3, 5, [0]⟩)], []⟩
        (.success 7 (⟨3, 5, [0]⟩, [9, 9, 9, 9, 9]))).map SchedulerState.outputWrites =
      some [] :=
  ⟨rfl, rfl⟩

/-! ## Claim C4 — loop exit condition -/

/-- C4 (code bug): the main loop has a second exit: when a new peer is
available and `pop_front` finds the queue empty, the code executes
`break 'main` even though an active task remains (first two conjuncts) —
the task could still fail and re-queue its descriptor, but the loop is
gone.  The intended exit (queue empty **and** no active tasks) and the
keep-iterating case (active task, no new peer) are the last two
conjuncts. -/
theorem c4_premature_exit_with_active_task :
    downloadIteration ⟨[], [(0, ⟨1, 4, [0]⟩)], []⟩ [5] [] (fun _ => false) =
      .exitMain ⟨[], [(0, ⟨1, 4, [0]⟩)], []⟩ ∧
    (⟨[], [(0, ⟨1, 4, [0]⟩)], []⟩ : SchedulerState).activePeers ≠ [] ∧
    downloadIteration ⟨[], [], []⟩ [] [] (fun _ => false) = .exitMain ⟨[], [], []⟩ ∧
    downloadIteration ⟨[], [(0, ⟨1, 4, [0]⟩)], []⟩ [] [] (fun _ => false) =
      .continueLoop ⟨[], [(0, ⟨1, 4, [0]⟩)], []⟩ := by
  refine ⟨rfl, ?_, rfl, rfl⟩
  decide

/-! ## Claim C5 — keep-alive frames -/

/-- C5 (code bug): a frame whose 4-byte length prefix is 0 yields an
empty payload buffer, and `PeerMessage::parse` then panics — its first
action is `input.get_u8()`, and the `bytes` crate's `get_u8` panics on
an empty buffer — instead of accepting and ignoring the keep-alive. -/
theorem c5_keepalive_panics :
    prepareBufferWithLength 0 = [] ∧
    PeerMessage.parse (prepareBufferWithLength 0) = .crash :=
  ⟨rfl, rfl⟩

/-! ## Claim C9 — block validity checking -/

/-- C9 (code bug): `check_block_validity` compares only the piece index
and the offset, never the block length.  For the (sole) block request
`(index 0, begin 0, length 10)` of a 10-byte piece, a response carrying
a 3-byte block passes validation, and the subsequent
`copy_from_slice` into `buf[0..10]` panics (slice length mismatch)
instead of the response being rejected with an error. -/
theorem c9_block_length_unchecked :
    generatePieceBlockRequests 0 10 = [⟨0, 0, 10⟩] ∧
    checkBlockValidity ⟨0, 0, 10⟩ ⟨0, 0, [1, 2, 3]⟩ = true ∧
    copyBlockIntoBuf (List.replicate 10 0) ⟨0, 0, 10⟩ ⟨0, 0, [1, 2, 3]⟩ = none :=
  ⟨rfl, rfl, rfl⟩

end BT
